import Mathlib

set_option linter.unusedVariables false

/-- Lexicographic comparison of position lists, mirroring the `Ord` instance of
Rust slices / `TinyVec` (element-wise, a strict prefix is smaller). -/
def listLeB : List Nat → List Nat → Bool
  | [], _ => true
  | _ :: _, [] => false
  | a :: as, b :: bs => if a < b then true else if b < a then false else listLeB as bs

/-- Lexicographic comparison of `(size, positions)` pairs, mirroring the derived
`Ord` on `(u32, TinyVec12<u32>)` used by `output.sort_unstable()`. -/
def pairLeB (a b : Nat × List Nat) : Bool :=
  if a.1 < b.1 then true else if b.1 < a.1 then false else listLeB a.2 b.2

/-- Stable sort by a `Nat` key, modelling `sort_unstable_by_key` (for the small
slices occurring here, Rust's `sort_unstable` is insertion sort, which is stable). -/
def sortByKey (key : α → Nat) (l : List α) : List α :=
  l.insertionSort (fun a b => key a ≤ key b)

/-- The final `output.sort_unstable()` on `(Size, TinyVec12<Position>)`. -/
def sortPairs (l : List (Nat × List Nat)) : List (Nat × List Nat) :=
  l.insertionSort (fun a b => pairLeB a b = true)

/-- The state of the main loop of `near_proximity`: the remaining (un-consumed
suffixes of the) streams, the frontier `current`, the tracked `leftmost` and
`rightmost` entries (`(keyword, position)` pairs) and the output accumulated so far. -/
structure PState where
  streams : List (List Nat)
  current : List (Nat × Nat)
  leftmost : Nat × Nat
  rightmost : Nat × Nat
  output : List (Nat × List Nat)
deriving Repr, DecidableEq

/-- Result of one iteration of the main loop: a panic (a Rust-side index/unwrap/
underflow failure), a `break` carrying the final output, or the next state. -/
inductive StepRes where
  | panic : StepRes
  | exit : List (Nat × List Nat) → StepRes
  | cont : PState → StepRes
deriving Repr, DecidableEq

/-- One iteration of the main loop of `near_proximity` (`lib.rs` lines 41-82).
Fallible operations (`keywords[leftmost.0]`, `current[1]`, `current[0]`,
the `u32` subtraction `rightmost.1 - leftmost.1`, `current[leftmost_index] = p`)
return `.panic` when their Rust counterpart would fail. -/
def nearStep (st : PState) : StepRes :=
  match st.streams[st.leftmost.1]? with
  | none => .panic
  | some stream =>
    let pOpt := stream.head?.map (fun h => (st.leftmost.1, h))
    let streams1 := st.streams.set st.leftmost.1 stream.tail
    match st.current[1]? with
    | none => .panic
    | some q =>
      match pOpt with
      | none =>
        match st.current[0]? with
        | none => .panic
        | some c0 =>
          if st.rightmost.2 < st.leftmost.2 then .panic
          else
            let currentK := sortByKey Prod.fst st.current
            .exit (st.output ++ [(st.rightmost.2 - st.leftmost.2, currentK.map Prod.snd)])
      | some p =>
        if st.rightmost.2 < p.2 then
          match st.current[0]? with
          | none => .panic
          | some c0 =>
            if st.rightmost.2 < st.leftmost.2 then .panic
            else
              let currentK := sortByKey Prod.fst st.current
              let output1 := st.output ++ [(st.rightmost.2 - st.leftmost.2, currentK.map Prod.snd)]
              if c0.1 < currentK.length then
                .cont ⟨streams1, sortByKey Prod.snd (currentK.set c0.1 p), q, p, output1⟩
              else .panic
        else
          if 0 < st.current.length then
            let leftmost1 := if p.2 < q.2 then p else q
            .cont ⟨streams1, sortByKey Prod.snd (st.current.set 0 p), leftmost1, st.rightmost,
              st.output⟩
          else .panic

/-- The main loop of `near_proximity`, run with explicit fuel: `none` means the
fuel ran out, `some none` a panic, `some (some out)` a normal `break` with final
(unsorted) output `out`. -/
def nearLoop : Nat → PState → Option (Option (List (Nat × List Nat)))
  | 0, _ => none
  | fuel + 1, st =>
    match nearStep st with
    | .panic => some none
    | .exit out => some (some out)
    | .cont st1 => nearLoop fuel st1

/-- Total number of unread positions, the loop variant. -/
def totalLen (streams : List (List Nat)) : Nat :=
  (streams.map List.length).sum

/-- The frontier-initialisation loop (`lib.rs` lines 26-32): read one position
from each stream in order; `none` when some stream is empty (the Rust code then
returns with the output cleared). Returns the frontier (keyword indices starting
at `i`) and the advanced streams. -/
def initFrontier : List (List Nat) → Nat → Option (List (Nat × Nat) × List (List Nat))
  | [], _ => some ([], [])
  | s :: rest, i =>
    match s with
    | [] => none
    | h :: t =>
      match initFrontier rest (i + 1) with
      | none => none
      | some (cur, strs) => some ((i, h) :: cur, t :: strs)

/-- The initial loop state built by `near_proximity` for `k ≥ 2` streams
(`lib.rs` lines 26-39): frontier of first positions sorted by position,
`leftmost`/`rightmost` its first/last entry. `none` when some stream is empty
or the `first`/`last` unwraps would fail. -/
def initState (keywords : List (List Nat)) : Option PState :=
  match initFrontier keywords 0 with
  | none => none
  | some (cur0, streams0) =>
    let current := sortByKey Prod.snd cur0
    match current.head?, current.getLast? with
    | some leftmost, some rightmost => some ⟨streams0, current, leftmost, rightmost, []⟩
    | _, _ => none

/-- Shallow embedding of `near_proximity` (`lib.rs` lines 13-86). Streams are
lists of positions, the borrowed output collection is the (ignored, i.e.
cleared) second argument. The result is `none` when the Rust code would panic
(an `unwrap`, an out-of-bounds index, the loop running longer than its
variant allows, or an underflowing `u32` subtraction), otherwise `some` of
the final content of the output collection. -/
def near_proximity (keywords : List (List Nat)) (output : List (Nat × List Nat)) :
    Option (List (Nat × List Nat)) :=
  if keywords.length < 2 then
    match keywords.getLast? with
    | none => some []
    | some kw => some (kw.map fun p => (0, [p]))
  else
    match initFrontier keywords 0 with
    | none => some []
    | some (cur0, streams0) =>
      let current := sortByKey Prod.snd cur0
      match current.head?, current.getLast? with
      | some leftmost, some rightmost =>
        match nearLoop (totalLen streams0 + 1) ⟨streams0, current, leftmost, rightmost, []⟩ with
        | some (some out) => some (sortPairs out)
        | _ => none
      | _, _ => none

/-- `n` iterations of the main loop body; `none` when the loop panics, breaks or
exits before completing `n` iterations, so `iterN n st = some st1` describes
exactly the state at the start of the `n`-th following loop iteration. -/
def iterN : Nat → PState → Option PState
  | 0, st => some st
  | n + 1, st =>
    match nearStep st with
    | .cont st1 => iterN n st1
    | _ => none

/-- A well-formed window for streams `ks`: one position per keyword, the
position at index `i` being a member of keyword `i`'s stream. -/
def WindowOk (ks : List (List Nat)) (w : Nat × List Nat) : Prop :=
  w.2.length = ks.length ∧
  ∀ i, i < ks.length → ∃ v s, w.2[i]? = some v ∧ ks[i]? = some s ∧ v ∈ s

/-- No position value occurs in two different streams. -/
def DisjKS (ks : List (List Nat)) : Prop :=
  ∀ (i j : Nat) (s t : List Nat), i ≠ j → ks[i]? = some s → ks[j]? = some t →
    ∀ x ∈ s, x ∉ t

/-- The loop invariant of `near_proximity` for distinct-position inputs:
one frontier entry per keyword, the frontier sorted by position and headed by
the tracked leftmost entry, the tracked rightmost position an upper bound,
every frontier position drawn from its own keyword's stream, the unread
streams suffixes of their originals, and all recorded windows well formed. -/
def InvD (ks : List (List Nat)) (st : PState) : Prop :=
  st.streams.length = ks.length ∧
  (st.current.map Prod.fst).Perm (List.range ks.length) ∧
  st.current.Sorted (fun a b => a.2 ≤ b.2) ∧
  st.current.head? = some st.leftmost ∧
  (∀ c ∈ st.current, c.2 ≤ st.rightmost.2) ∧
  (∀ c ∈ st.current, ∃ s, ks[c.1]? = some s ∧ c.2 ∈ s) ∧
  (∀ (j : Nat) (r : List Nat), st.streams[j]? = some r → ∃ s, ks[j]? = some s ∧ r ⊆ s) ∧
  (∀ w ∈ st.output, WindowOk ks w)

/-- The data needed to show the loop body of `near_proximity` never panics:
`k` streams and `k` frontier entries, all keyword indices in range, and the
tracked window edges in the right order and bounding the frontier. -/
def InvS (k : Nat) (st : PState) : Prop :=
  st.streams.length = k ∧ st.current.length = k ∧
  (∀ c ∈ st.current, c.1 < k) ∧ st.leftmost.1 < k ∧
  st.leftmost.2 ≤ st.rightmost.2 ∧ (∀ c ∈ st.current, c.2 ≤ st.rightmost.2)

-- ## Basic lemmas

theorem listLeB_total : ∀ a b : List Nat, listLeB a b = true ∨ listLeB b a = true := by
  intro a
  induction a with
  | nil => intro b; left; rfl
  | cons x xs ih =>
    intro b
    cases b with
    | nil => right; rfl
    | cons y ys =>
      simp only [listLeB]
      rcases Nat.lt_trichotomy x y with h | h | h
      · left; simp [h]
      · subst h; simpa [Nat.lt_irrefl] using ih ys
      · right; simp [h, Nat.lt_asymm h]

theorem listLeB_trans : ∀ a b c : List Nat,
    listLeB a b = true → listLeB b c = true → listLeB a c = true := by
  intro a
  induction a with
  | nil => intro b c _ _; rfl
  | cons x xs ih =>
    intro b c hab hbc
    cases b with
    | nil => simp [listLeB] at hab
    | cons y ys =>
      cases c with
      | nil => simp [listLeB] at hbc
      | cons z zs =>
        simp only [listLeB] at hab hbc ⊢
        rcases Nat.lt_trichotomy x y with hxy | hxy | hxy
        · rcases Nat.lt_trichotomy y z with hyz | hyz | hyz
          · simp [Nat.lt_trans hxy hyz]
          · subst hyz; simp [hxy]
          · simp [hyz, Nat.lt_asymm hyz] at hbc
        · subst hxy
          rcases Nat.lt_trichotomy x z with hyz | hyz | hyz
          · simp [hyz]
          · subst hyz
            simp only [Nat.lt_irrefl, if_false] at hab hbc ⊢
            exact ih _ _ hab hbc
          · simp [hyz, Nat.lt_asymm hyz] at hbc
        · simp [hxy, Nat.lt_asymm hxy] at hab

theorem pairLeB_total : ∀ a b : Nat × List Nat, pairLeB a b = true ∨ pairLeB b a = true := by
  intro a b
  simp only [pairLeB]
  rcases Nat.lt_trichotomy a.1 b.1 with h | h | h
  · left; simp [h]
  · rw [h]; simpa [Nat.lt_irrefl] using listLeB_total a.2 b.2
  · right; simp [h, Nat.lt_asymm h]

theorem pairLeB_trans : ∀ a b c : Nat × List Nat,
    pairLeB a b = true → pairLeB b c = true → pairLeB a c = true := by
  intro a b c hab hbc
  simp only [pairLeB] at hab hbc ⊢
  rcases Nat.lt_trichotomy a.1 b.1 with h1 | h1 | h1
  · rcases Nat.lt_trichotomy b.1 c.1 with h2 | h2 | h2
    · simp [Nat.lt_trans h1 h2]
    · rw [← h2]; simp [h1]
    · simp [h2, Nat.lt_asymm h2] at hbc
  · rw [h1]
    rcases Nat.lt_trichotomy b.1 c.1 with h2 | h2 | h2
    · simp [h2]
    · rw [h2]
      rw [h1] at hab
      rw [h2] at hbc
      simp only [Nat.lt_irrefl, if_false] at hab hbc ⊢
      exact listLeB_trans _ _ _ hab hbc
    · simp [h2, Nat.lt_asymm h2] at hbc
  · simp [h1, Nat.lt_asymm h1] at hab

theorem initFrontier_eq_none : ∀ (ks : List (List Nat)) (i : Nat),
    (∃ s ∈ ks, s = []) → initFrontier ks i = none := by
  intro ks
  induction ks with
  | nil => intro i h; rcases h with ⟨s, hs, _⟩; cases hs
  | cons s rest ih =>
    intro i h
    rcases h with ⟨t, ht, rfl⟩
    rcases List.mem_cons.1 ht with heq | hmem
    · rw [← heq]; rfl
    · cases s with
      | nil => rfl
      | cons x xs =>
        simp only [initFrontier]
        rw [ih (i + 1) ⟨[], hmem, rfl⟩]

-- ## C1, C5, C6, C8 : concrete and degenerate cases

/-- Claim C1: for the three keyword streams `[0,1,6,10]`, `[2,11]` and
`[3,7,12]` (in that keyword order), `near_proximity` produces exactly the
output `[(2,[1,2,3]),(2,[10,11,12]),(4,[6,2,3]),(4,[10,11,7])]`, in that
order, whatever the previous content of the output collection. -/
theorem near_proximity_three_keywords :
    ∀ output, near_proximity [[0,1,6,10],[2,11],[3,7,12]] output =
      some [(2,[1,2,3]),(2,[10,11,12]),(4,[6,2,3]),(4,[10,11,7])] :=
  fun _ => rfl

/-- Claim C5: for the two keyword streams `[0,1,6,10]` and `[2,3,7,12]`
(in that keyword order), `near_proximity` produces exactly the output
`[(1,[1,2]),(1,[6,7]),(2,[10,12]),(3,[6,3]),(3,[10,7])]`, in that order. -/
theorem near_proximity_two_keywords :
    ∀ output, near_proximity [[0,1,6,10],[2,3,7,12]] output =
      some [(1,[1,2]),(1,[6,7]),(2,[10,12]),(3,[6,3]),(3,[10,7])] :=
  fun _ => rfl

/-- Claim C6: for a single (sorted) stream, `near_proximity` emits each
remaining position `p` as its own window `(0, [p])` with size `0`, in stream
order, and nothing else; in particular for `[0,1,2,6,10]` the output is
exactly `[(0,[0]),(0,[1]),(0,[2]),(0,[6]),(0,[10])]`. -/
theorem near_proximity_one_keyword :
    (∀ (s : List Nat) output,
      near_proximity [s] output = some (s.map fun p => (0, [p]))) ∧
    (∀ output, near_proximity [[0,1,2,6,10]] output =
      some [(0,[0]),(0,[1]),(0,[2]),(0,[6]),(0,[10])]) := by
  constructor
  · intro s output
    simp [near_proximity]
  · intro output; rfl

/-- Claim C8: for an empty list of streams, `near_proximity` always yields an
empty output, regardless of the output collection's previous contents. -/
theorem near_proximity_zero_keywords :
    ∀ output, near_proximity [] output = some [] :=
  fun _ => rfl

/-- Claim C7: for `k ≥ 2` streams of which at least one is empty,
`near_proximity` stops during frontier initialisation and the output is empty
(only the clear-on-entry has happened). -/
theorem near_proximity_empty_stream :
    ∀ (keywords : List (List Nat)) output, 2 ≤ keywords.length →
      (∃ s ∈ keywords, s = []) → near_proximity keywords output = some [] := by
  intro ks output hk hemp
  simp only [near_proximity]
  rw [if_neg (by omega), initFrontier_eq_none ks 0 hemp]

theorem near_proximity_empty_stream_witness :
    2 ≤ ([[],[3,7,12]] : List (List Nat)).length ∧
    near_proximity [[],[3,7,12]] [] = some [] :=
  ⟨by decide, near_proximity_empty_stream [[],[3,7,12]] [] (by decide) ⟨[], by decide, rfl⟩⟩

-- ## nearStep characterisation

theorem nearStep_eq_exit (st : PState) (q c0 : Nat × Nat)
    (hs : st.streams[st.leftmost.1]? = some [])
    (hq : st.current[1]? = some q) (hc0 : st.current[0]? = some c0)
    (hle : st.leftmost.2 ≤ st.rightmost.2) :
    nearStep st = .exit (st.output ++
      [(st.rightmost.2 - st.leftmost.2, (sortByKey Prod.fst st.current).map Prod.snd)]) := by
  simp [nearStep, hs, hq, hc0, Nat.not_lt.2 hle]

theorem nearStep_eq_cont_emit (st : PState) (q c0 : Nat × Nat) (hd : Nat) (t : List Nat)
    (hs : st.streams[st.leftmost.1]? = some (hd :: t))
    (hq : st.current[1]? = some q) (hc0 : st.current[0]? = some c0)
    (hgt : st.rightmost.2 < hd) (hle : st.leftmost.2 ≤ st.rightmost.2)
    (hidx : c0.1 < st.current.length) :
    nearStep st = .cont ⟨st.streams.set st.leftmost.1 t,
      sortByKey Prod.snd ((sortByKey Prod.fst st.current).set c0.1 (st.leftmost.1, hd)),
      q, (st.leftmost.1, hd),
      st.output ++
        [(st.rightmost.2 - st.leftmost.2, (sortByKey Prod.fst st.current).map Prod.snd)]⟩ := by
  have hlen : (sortByKey Prod.fst st.current).length = st.current.length := by
    simp [sortByKey, List.length_insertionSort]
  simp [nearStep, hs, hq, hc0, hgt, Nat.not_lt.2 hle, hlen, hidx]

theorem nearStep_eq_cont_noemit (st : PState) (q : Nat × Nat) (hd : Nat) (t : List Nat)
    (hs : st.streams[st.leftmost.1]? = some (hd :: t))
    (hq : st.current[1]? = some q)
    (hng : hd ≤ st.rightmost.2) (hpos : 0 < st.current.length) :
    nearStep st = .cont ⟨st.streams.set st.leftmost.1 t,
      sortByKey Prod.snd (st.current.set 0 (st.leftmost.1, hd)),
      (if hd < q.2 then (st.leftmost.1, hd) else q), st.rightmost, st.output⟩ := by
  simp [nearStep, hs, hq, Nat.not_lt.2 hng, hpos]

theorem nearStep_cont_inv (st st1 : PState) (h : nearStep st = .cont st1) :
    ∃ hd t q, st.streams[st.leftmost.1]? = some (hd :: t) ∧ st.current[1]? = some q ∧
      ((st.rightmost.2 < hd ∧
          ∃ c0, st.current[0]? = some c0 ∧ st.leftmost.2 ≤ st.rightmost.2 ∧
            c0.1 < st.current.length ∧
            st1 = ⟨st.streams.set st.leftmost.1 t,
              sortByKey Prod.snd ((sortByKey Prod.fst st.current).set c0.1 (st.leftmost.1, hd)),
              q, (st.leftmost.1, hd),
              st.output ++ [(st.rightmost.2 - st.leftmost.2,
                (sortByKey Prod.fst st.current).map Prod.snd)]⟩) ∨
        (hd ≤ st.rightmost.2 ∧ 0 < st.current.length ∧
          st1 = ⟨st.streams.set st.leftmost.1 t,
            sortByKey Prod.snd (st.current.set 0 (st.leftmost.1, hd)),
            (if hd < q.2 then (st.leftmost.1, hd) else q), st.rightmost, st.output⟩)) := by
  cases hs : st.streams[st.leftmost.1]? with
  | none => simp [nearStep, hs] at h
  | some stream =>
    cases hq : st.current[1]? with
    | none => simp [nearStep, hs, hq] at h
    | some q =>
      cases stream with
      | nil =>
        cases hc0 : st.current[0]? with
        | none => simp [nearStep, hs, hq, hc0] at h
        | some c0 =>
          by_cases hlt : st.rightmost.2 < st.leftmost.2 <;>
            simp [nearStep, hs, hq, hc0, hlt] at h
      | cons hd t =>
        refine ⟨hd, t, q, rfl, rfl, ?_⟩
        by_cases hgt : st.rightmost.2 < hd
        · cases hc0 : st.current[0]? with
          | none => simp [nearStep, hs, hq, hc0, hgt] at h
          | some c0 =>
            by_cases hlt : st.rightmost.2 < st.leftmost.2
            · simp [nearStep, hs, hq, hc0, hgt, hlt] at h
            · by_cases hidx : c0.1 < (sortByKey Prod.fst st.current).length
              · have hlen : (sortByKey Prod.fst st.current).length = st.current.length := by
                  simp [sortByKey, List.length_insertionSort]
                simp only [nearStep, hs, hq, hc0, hgt, hlt, hidx, List.head?,
                  Option.map_some', if_pos, if_neg, if_true, if_false, ite_true, ite_false,
                  List.tail_cons] at h
                refine Or.inl ⟨hgt, c0, rfl, Nat.not_lt.1 hlt, hlen ▸ hidx, ?_⟩
                cases h
                rfl
              · simp [nearStep, hs, hq, hc0, hgt, hlt, hidx] at h
        · by_cases hpos : 0 < st.current.length
          · simp only [nearStep, hs, hq, hgt, hpos, List.head?, Option.map_some',
              if_pos, if_neg, if_true, if_false, ite_true, ite_false, List.tail_cons] at h
            refine Or.inr ⟨Nat.not_lt.1 hgt, hpos, ?_⟩
            cases h
            rfl
          · simp [nearStep, hs, hq, hgt, hpos] at h

theorem nearStep_exit_inv (st : PState) (o : List (Nat × List Nat))
    (h : nearStep st = .exit o) :
    st.streams[st.leftmost.1]? = some [] ∧ (∃ q, st.current[1]? = some q) ∧
      (∃ c0, st.current[0]? = some c0) ∧ st.leftmost.2 ≤ st.rightmost.2 ∧
      o = st.output ++ [(st.rightmost.2 - st.leftmost.2,
        (sortByKey Prod.fst st.current).map Prod.snd)] := by
  cases hs : st.streams[st.leftmost.1]? with
  | none => simp [nearStep, hs] at h
  | some stream =>
    cases hq : st.current[1]? with
    | none => simp [nearStep, hs, hq] at h
    | some q =>
      cases stream with
      | nil =>
        cases hc0 : st.current[0]? with
        | none => simp [nearStep, hs, hq, hc0] at h
        | some c0 =>
          by_cases hlt : st.rightmost.2 < st.leftmost.2
          · simp [nearStep, hs, hq, hc0, hlt] at h
          · simp only [nearStep, hs, hq, hc0, hlt, List.head?, Option.map_none',
              if_pos, if_neg, if_true, if_false, ite_true, ite_false] at h
            cases h
            exact ⟨rfl, ⟨q, rfl⟩, ⟨c0, rfl⟩, Nat.not_lt.1 hlt, rfl⟩
      | cons hd t =>
        by_cases hgt : st.rightmost.2 < hd
        · cases hc0 : st.current[0]? with
          | none => simp [nearStep, hs, hq, hc0, hgt] at h
          | some c0 =>
            by_cases hlt : st.rightmost.2 < st.leftmost.2
            · simp [nearStep, hs, hq, hc0, hgt, hlt] at h
            · by_cases hidx : c0.1 < (sortByKey Prod.fst st.current).length
              · simp [nearStep, hs, hq, hc0, hgt, hlt, hidx] at h
              · simp [nearStep, hs, hq, hc0, hgt, hlt, hidx] at h
        · by_cases hpos : 0 < st.current.length
          · simp [nearStep, hs, hq, hgt, hpos] at h
          · simp [nearStep, hs, hq, hgt, hpos] at h

-- ## Termination (C9)

theorem totalLen_set : ∀ (streams : List (List Nat)) (i : Nat) (hd : Nat) (t : List Nat),
    streams[i]? = some (hd :: t) → totalLen (streams.set i t) + 1 = totalLen streams := by
  intro streams
  induction streams with
  | nil => intro i hd t h; simp at h
  | cons s rest ih =>
    intro i hd t h
    cases i with
    | zero =>
      simp only [List.getElem?_cons_zero, Option.some.injEq] at h
      subst h
      simp [totalLen, List.set]
      omega
    | succ j =>
      simp only [List.getElem?_cons_succ] at h
      have := ih j hd t h
      simp only [totalLen, List.set, List.map_cons, List.sum_cons] at this ⊢
      omega

theorem nearStep_cont_totalLen (st st1 : PState) (h : nearStep st = .cont st1) :
    totalLen st1.streams + 1 = totalLen st.streams := by
  obtain ⟨hd, t, q, hs, hq, hcase⟩ := nearStep_cont_inv st st1 h
  have hset := totalLen_set st.streams st.leftmost.1 hd t hs
  rcases hcase with ⟨_, c0, _, _, _, hst1⟩ | ⟨_, _, hst1⟩ <;> rw [hst1] <;> exact hset

/-- Claim C9: the main loop of `near_proximity` terminates on every finite
input. With any fuel exceeding the total number of unread positions the
fuelled loop completes (it never runs out of fuel, because every iteration
either breaks or consumes one position from the leftmost keyword's stream),
and its result is independent of the fuel. -/
theorem nearLoop_terminates :
    ∀ (fuel fuel2 : Nat) (st : PState), totalLen st.streams < fuel →
      totalLen st.streams < fuel2 →
      (nearLoop fuel st).isSome ∧ nearLoop fuel st = nearLoop fuel2 st := by
  intro fuel
  induction fuel with
  | zero => intro fuel2 st h _; omega
  | succ n ih =>
    intro fuel2 st h h2
    cases fuel2 with
    | zero => omega
    | succ m =>
      simp only [nearLoop]
      cases hstep : nearStep st with
      | panic => simp
      | exit o => simp
      | cont st1 =>
        have hdec := nearStep_cont_totalLen st st1 hstep
        exact ih m st1 (by omega) (by omega)

theorem nearLoop_terminates_witness :
    totalLen ([[4],[10,20]] : List (List Nat)) < 6 ∧
      totalLen ([[4],[10,20]] : List (List Nat)) < 9 ∧
      (nearLoop 6 ⟨[[4],[10,20]], [(0,0),(1,4)], (0,0), (1,4), []⟩).isSome ∧
      nearLoop 6 ⟨[[4],[10,20]], [(0,0),(1,4)], (0,0), (1,4), []⟩ =
        nearLoop 9 ⟨[[4],[10,20]], [(0,0),(1,4)], (0,0), (1,4), []⟩ :=
  ⟨by decide, by decide,
    (nearLoop_terminates 6 9 ⟨[[4],[10,20]], [(0,0),(1,4)], (0,0), (1,4), []⟩
      (by decide) (by decide)).1,
    (nearLoop_terminates 6 9 ⟨[[4],[10,20]], [(0,0),(1,4)], (0,0), (1,4), []⟩
      (by decide) (by decide)).2⟩

-- ## Safety invariant (C10)
theorem mem_sortByKey {key : α → Nat} {l : List α} {x : α} :
    x ∈ sortByKey key l ↔ x ∈ l := by
  simp [sortByKey, List.mem_insertionSort]

theorem length_sortByKey {key : α → Nat} {l : List α} :
    (sortByKey key l).length = l.length := by
  simp [sortByKey, List.length_insertionSort]

theorem invS_step (k : Nat) (st : PState) (hk : 2 ≤ k) (hinv : InvS k st) :
    (∃ o, nearStep st = .exit o) ∨
      (∃ st1, nearStep st = .cont st1 ∧ InvS k st1) := by
  obtain ⟨hsl, hcl, hkw, hlk, hle, hbd⟩ := hinv
  have h1k : 1 < st.current.length := by omega
  have h0k : 0 < st.current.length := by omega
  have hq : st.current[1]? = some st.current[1] := List.getElem?_eq_getElem (by omega)
  have hc0 : st.current[0]? = some st.current[0] := List.getElem?_eq_getElem (by omega)
  have hqmem : st.current[1] ∈ st.current := List.getElem?_mem hq
  have hc0mem : st.current[0] ∈ st.current := List.getElem?_mem hc0
  have hslt : st.leftmost.1 < st.streams.length := by omega
  have hs : st.streams[st.leftmost.1]? = some st.streams[st.leftmost.1] :=
    List.getElem?_eq_getElem hslt
  cases hstream : st.streams[st.leftmost.1] with
  | nil =>
    rw [hstream] at hs
    exact Or.inl ⟨_, nearStep_eq_exit st st.current[1] st.current[0] hs hq hc0 hle⟩
  | cons hd t =>
    rw [hstream] at hs
    by_cases hgt : st.rightmost.2 < hd
    · have hidx : st.current[0].1 < st.current.length := by
        have := hkw _ hc0mem; omega
      refine Or.inr ⟨_, nearStep_eq_cont_emit st st.current[1] st.current[0] hd t
        hs hq hc0 hgt hle hidx, ?_⟩
      refine ⟨by simp [hsl], ?_, ?_, ?_, ?_, ?_⟩
      · simp [length_sortByKey, hcl]
      · intro c hc
        rw [mem_sortByKey] at hc
        rcases List.mem_or_eq_of_mem_set hc with hc | hc
        · rw [mem_sortByKey] at hc; exact hkw c hc
        · rw [hc]; exact hlk
      · exact hkw _ hqmem
      · exact Nat.le_of_lt (Nat.lt_of_le_of_lt (hbd _ hqmem) hgt)
      · intro c hc
        rw [mem_sortByKey] at hc
        rcases List.mem_or_eq_of_mem_set hc with hc | hc
        · rw [mem_sortByKey] at hc
          exact Nat.le_of_lt (Nat.lt_of_le_of_lt (hbd c hc) hgt)
        · rw [hc]
    · refine Or.inr ⟨_, nearStep_eq_cont_noemit st st.current[1] hd t
        hs hq (Nat.not_lt.1 hgt) h0k, ?_⟩
      refine ⟨by simp [hsl], ?_, ?_, ?_, ?_, ?_⟩
      · simp [length_sortByKey, hcl]
      · intro c hc
        rw [mem_sortByKey] at hc
        rcases List.mem_or_eq_of_mem_set hc with hc | hc
        · exact hkw c hc
        · rw [hc]; exact hlk
      · by_cases hlt : hd < st.current[1].2
        · simp only [if_pos hlt]; exact hlk
        · simp only [if_neg hlt]; exact hkw _ hqmem
      · by_cases hlt : hd < st.current[1].2
        · simp only [if_pos hlt]; exact Nat.not_lt.1 hgt
        · simp only [if_neg hlt]; exact hbd _ hqmem
      · intro c hc
        rw [mem_sortByKey] at hc
        rcases List.mem_or_eq_of_mem_set hc with hc | hc
        · exact hbd c hc
        · rw [hc]; exact Nat.not_lt.1 hgt

theorem sorted_sortByKey (key : α → Nat) (l : List α) :
    (sortByKey key l).Sorted (fun a b => key a ≤ key b) := by
  haveI : IsTotal α (fun a b => key a ≤ key b) := ⟨fun a b => Nat.le_total _ _⟩
  haveI : IsTrans α (fun a b => key a ≤ key b) := ⟨fun a b c hab hbc => Nat.le_trans hab hbc⟩
  exact List.sorted_insertionSort _ l

theorem key_le_of_getLast? (key : α → Nat) :
    ∀ (l : List α), l.Sorted (fun a b => key a ≤ key b) → ∀ m, l.getLast? = some m →
      ∀ x ∈ l, key x ≤ key m := by
  intro l
  induction l with
  | nil => intro _ m hm; cases hm
  | cons a l ih =>
    intro hs m hm x hx
    cases l with
    | nil =>
      simp only [List.getLast?_singleton, Option.some.injEq] at hm
      rcases List.mem_singleton.1 hx with rfl
      rw [hm]
    | cons b l' =>
      rw [List.getLast?_cons_cons] at hm
      have hmem : m ∈ b :: l' := by
        obtain ⟨hne, heq⟩ := List.mem_getLast?_eq_getLast (by rw [hm]; rfl)
        rw [heq]; exact List.getLast_mem hne
      rcases List.mem_cons.1 hx with rfl | hx
      · exact (List.sorted_cons.1 hs).1 m hmem
      · exact ih (List.sorted_cons.1 hs).2 m hm x hx

theorem initFrontier_spec :
    ∀ (ks : List (List Nat)) (i : Nat) (cur : List (Nat × Nat)) (strs : List (List Nat)),
      initFrontier ks i = some (cur, strs) →
      cur.length = ks.length ∧ strs.length = ks.length ∧
      ∀ j, j < ks.length →
        ∃ hd t, ks[j]? = some (hd :: t) ∧ cur[j]? = some (i + j, hd) ∧ strs[j]? = some t := by
  intro ks
  induction ks with
  | nil =>
    intro i cur strs h
    simp only [initFrontier, Option.some.injEq, Prod.mk.injEq] at h
    obtain ⟨rfl, rfl⟩ := h
    exact ⟨rfl, rfl, fun j hj => absurd hj (by simp)⟩
  | cons s rest ih =>
    intro i cur strs h
    cases s with
    | nil => simp [initFrontier] at h
    | cons hd t =>
      simp only [initFrontier] at h
      cases hrec : initFrontier rest (i + 1) with
      | none => rw [hrec] at h; cases h
      | some p =>
        obtain ⟨cur', strs'⟩ := p
        rw [hrec] at h
        simp only [Option.some.injEq, Prod.mk.injEq] at h
        obtain ⟨rfl, rfl⟩ := h
        obtain ⟨hl1, hl2, hspec⟩ := ih (i + 1) cur' strs' hrec
        refine ⟨by simp [hl1], by simp [hl2], ?_⟩
        intro j hj
        cases j with
        | zero => exact ⟨hd, t, by simp⟩
        | succ j' =>
          simp only [List.length_cons] at hj
          obtain ⟨hd', t', h1, h2, h3⟩ := hspec j' (by omega)
          refine ⟨hd', t', by simpa using h1, ?_, by simpa using h3⟩
          simp only [List.getElem?_cons_succ]
          rw [h2]
          congr 2
          omega

theorem invS_loop (k : Nat) :
    ∀ (fuel : Nat) (st : PState), totalLen st.streams < fuel → 2 ≤ k → InvS k st →
      ∃ o, nearLoop fuel st = some (some o) := by
  intro fuel
  induction fuel with
  | zero => intro st h; omega
  | succ n ih =>
    intro st h hk hinv
    rcases invS_step k st hk hinv with ⟨o, ho⟩ | ⟨st1, hst1, hinv1⟩
    · exact ⟨o, by simp [nearLoop, ho]⟩
    · have hlt := nearStep_cont_totalLen st st1 hst1
      obtain ⟨o, ho⟩ := ih st1 (by omega) hk hinv1
      exact ⟨o, by simp [nearLoop, hst1, ho]⟩

theorem invS_init (keywords : List (List Nat)) (cur0 : List (Nat × Nat))
    (streams0 : List (List Nat)) (leftmost rightmost : Nat × Nat)
    (hinit : initFrontier keywords 0 = some (cur0, streams0))
    (hhead : (sortByKey Prod.snd cur0).head? = some leftmost)
    (hlast : (sortByKey Prod.snd cur0).getLast? = some rightmost) :
    InvS keywords.length ⟨streams0, sortByKey Prod.snd cur0, leftmost, rightmost, []⟩ := by
  obtain ⟨hl1, hl2, hspec⟩ := initFrontier_spec keywords 0 cur0 streams0 hinit
  have hsorted := sorted_sortByKey Prod.snd cur0
  have hmax := key_le_of_getLast? Prod.snd _ hsorted rightmost hlast
  have hcurmem : ∀ c ∈ cur0, c.1 < keywords.length ∧ c.2 ≤ rightmost.2 := by
    intro c hc
    constructor
    · obtain ⟨j, hj⟩ := List.mem_iff_getElem?.1 hc
      have hjlt : j < cur0.length := by
        by_contra hge
        rw [List.getElem?_eq_none (by omega)] at hj
        cases hj
      obtain ⟨hd, t, _, h2, _⟩ := hspec j (by omega)
      rw [hj] at h2
      cases h2
      omega
    · exact hmax c (mem_sortByKey.2 hc)
  have hlm : leftmost ∈ sortByKey Prod.snd cur0 := List.mem_of_mem_head? (by rw [hhead]; rfl)
  refine ⟨hl2, by simp [length_sortByKey, hl1], ?_, ?_, ?_, ?_⟩
  · intro c hc
    exact (hcurmem c (mem_sortByKey.1 hc)).1
  · exact (hcurmem leftmost (mem_sortByKey.1 hlm)).1
  · exact (hcurmem leftmost (mem_sortByKey.1 hlm)).2
  · intro c hc
    exact (hcurmem c (mem_sortByKey.1 hc)).2

/-- Claim C10: for every input of `k ≥ 2` sorted streams `near_proximity`
never panics: the embedding returns `some` result, i.e. the tracked leftmost
position never exceeds the tracked rightmost one when a window size is
computed by `u32` subtraction, and the `first`/`last` unwraps and the index
accesses `current[0]`, `current[1]`, `current[leftmost_index]` and
`keywords[leftmost.0]` all stay in bounds. -/
theorem near_proximity_no_panic (keywords : List (List Nat)) (output : List (Nat × List Nat))
    (hk : 2 ≤ keywords.length) (hsorted : ∀ s ∈ keywords, List.Sorted (· ≤ ·) s) :
    (near_proximity keywords output).isSome := by
  simp only [near_proximity]
  rw [if_neg (by omega)]
  cases hinit : initFrontier keywords 0 with
  | none => simp
  | some p =>
    obtain ⟨cur0, streams0⟩ := p
    dsimp only
    obtain ⟨hl1, hl2, _⟩ := initFrontier_spec keywords 0 cur0 streams0 hinit
    have hne : sortByKey Prod.snd cur0 ≠ [] := by
      intro h
      have hls : (sortByKey Prod.snd cur0).length = cur0.length := length_sortByKey
      rw [h] at hls
      simp at hls
      omega
    cases hhead : (sortByKey Prod.snd cur0).head? with
    | none => exact absurd (List.head?_eq_none_iff.1 hhead) hne
    | some leftmost =>
      cases hlast : (sortByKey Prod.snd cur0).getLast? with
      | none => exact absurd (List.getLast?_eq_none_iff.1 hlast) hne
      | some rightmost =>
        dsimp only
        have hinv := invS_init keywords cur0 streams0 leftmost rightmost hinit hhead hlast
        obtain ⟨o, ho⟩ := invS_loop keywords.length (totalLen streams0 + 1)
          ⟨streams0, sortByKey Prod.snd cur0, leftmost, rightmost, []⟩
          (Nat.lt_succ_self _) hk hinv
        rw [ho]
        simp

theorem near_proximity_no_panic_witness :
    2 ≤ ([[0,1,6,10],[2,3,7,12]] : List (List Nat)).length ∧
      (near_proximity [[0,1,6,10],[2,3,7,12]] []).isSome :=
  ⟨by decide, near_proximity_no_panic [[0,1,6,10],[2,3,7,12]] [] (by decide) (by decide)⟩

-- ## Output ordering (C2)

theorem sortPairs_sorted (l : List (Nat × List Nat)) :
    (sortPairs l).Sorted (fun a b => pairLeB a b = true) := by
  haveI : IsTotal (Nat × List Nat) (fun a b => pairLeB a b = true) := ⟨pairLeB_total⟩
  haveI : IsTrans (Nat × List Nat) (fun a b => pairLeB a b = true) := ⟨pairLeB_trans⟩
  exact List.sorted_insertionSort _ l

theorem pairLeB_of_single (p p2 : Nat) (h : p ≤ p2) : pairLeB (0, [p]) (0, [p2]) = true := by
  simp only [pairLeB, Nat.lt_irrefl, if_false, listLeB]
  rcases Nat.lt_or_ge p p2 with hlt | hge
  · simp [hlt]
  · have : p = p2 := by omega
    subst this
    simp

/-- Claim C2: for every input of sorted streams, the output collection of
`near_proximity` is sorted ascending by window size and then lexicographically
by the keyword-ordered position sequence: consecutive entries are
non-decreasing under that order (`pairLeB b a = false ∨ a = b`, stated here as
`pairLeB a b = true` chained along the output). -/
theorem near_proximity_output_sorted (keywords : List (List Nat))
    (output res : List (Nat × List Nat))
    (hsorted : ∀ s ∈ keywords, List.Sorted (· ≤ ·) s)
    (hres : near_proximity keywords output = some res) :
    res.Chain' (fun a b => pairLeB a b = true) := by
  by_cases hk : keywords.length < 2
  · rw [near_proximity, if_pos hk] at hres
    cases hlast : keywords.getLast? with
    | none =>
      rw [hlast] at hres
      cases hres
      exact List.chain'_nil
    | some kw =>
      rw [hlast] at hres
      cases hres
      have hkw : kw ∈ keywords := by
        obtain ⟨hne, heq⟩ := List.mem_getLast?_eq_getLast (by rw [hlast]; rfl)
        rw [heq]; exact List.getLast_mem hne
      have hchain : kw.Chain' (· ≤ ·) := (hsorted kw hkw).chain'
      rw [List.chain'_map]
      exact hchain.imp (fun a b hab => pairLeB_of_single a b hab)
  · rw [near_proximity, if_neg hk] at hres
    cases hinit : initFrontier keywords 0 with
    | none =>
      rw [hinit] at hres
      cases hres
      exact List.chain'_nil
    | some p =>
      obtain ⟨cur0, streams0⟩ := p
      rw [hinit] at hres
      dsimp only at hres
      cases hhead : (sortByKey Prod.snd cur0).head? with
      | none =>
        rw [hhead] at hres
        cases hlast : (sortByKey Prod.snd cur0).getLast? with
        | none => rw [hlast] at hres; cases hres
        | some rightmost => rw [hlast] at hres; cases hres
      | some leftmost =>
        cases hlast : (sortByKey Prod.snd cur0).getLast? with
        | none => rw [hhead, hlast] at hres; cases hres
        | some rightmost =>
          rw [hhead, hlast] at hres
          dsimp only at hres
          cases hloop : nearLoop (totalLen streams0 + 1)
              ⟨streams0, sortByKey Prod.snd cur0, leftmost, rightmost, []⟩ with
          | none => rw [hloop] at hres; cases hres
          | some oo =>
            rw [hloop] at hres
            cases oo with
            | none => cases hres
            | some out =>
              dsimp only at hres
              cases hres
              exact (sortPairs_sorted out).chain'

theorem near_proximity_output_sorted_witness :
    (∀ s ∈ [[0,1,6,10],[2,3,7,12]], List.Sorted (· ≤ ·) s) ∧
      List.Chain' (fun a b => pairLeB a b = true)
        [(1,[1,2]),(1,[6,7]),(2,[10,12]),(3,[6,3]),(3,[10,7])] :=
  ⟨by decide, near_proximity_output_sorted [[0,1,6,10],[2,3,7,12]] []
    [(1,[1,2]),(1,[6,7]),(2,[10,12]),(3,[6,3]),(3,[10,7])] (by decide) (by decide)⟩

-- ## Exhaustion stop (C3)

/-- Claim C3: as soon as the stream owned by the current leftmost keyword is
exhausted, the loop body records the current frontier's window and exits the
whole enumeration: `nearStep` returns `.exit` with exactly one extra window
built from the frontier as it stood, the loop returns that output for any
remaining fuel (no further iteration runs, so no further position is read),
and the result does not depend on the other streams' unread contents. -/
theorem near_proximity_exhaustion_stop (st : PState)
    (hs : st.streams[st.leftmost.1]? = some [])
    (hlen : 2 ≤ st.current.length)
    (hle : st.leftmost.2 ≤ st.rightmost.2) :
    nearStep st = .exit (st.output ++ [(st.rightmost.2 - st.leftmost.2,
        (sortByKey Prod.fst st.current).map Prod.snd)]) ∧
    (∀ fuel, nearLoop (fuel + 1) st = some (some (st.output ++
        [(st.rightmost.2 - st.leftmost.2, (sortByKey Prod.fst st.current).map Prod.snd)]))) ∧
    (∀ streams2 : List (List Nat), streams2[st.leftmost.1]? = some [] →
      nearStep { st with streams := streams2 } = nearStep st) := by
  have hq : st.current[1]? = some st.current[1] := List.getElem?_eq_getElem (by omega)
  have hc0 : st.current[0]? = some st.current[0] := List.getElem?_eq_getElem (by omega)
  have hexit := nearStep_eq_exit st st.current[1] st.current[0] hs hq hc0 hle
  refine ⟨hexit, ?_, ?_⟩
  · intro fuel
    simp [nearLoop, hexit]
  · intro streams2 hs2
    have hexit2 := nearStep_eq_exit { st with streams := streams2 }
      st.current[1] st.current[0] hs2 hq hc0 hle
    rw [hexit, hexit2]

theorem near_proximity_exhaustion_stop_witness :
    ([[],[9]] : List (List Nat))[0]? = some [] ∧
      nearStep ⟨[[],[9]], [(0,3),(1,4)], (0,3), (1,4), []⟩ = .exit [(1, [3,4])] := by
  have h := near_proximity_exhaustion_stop ⟨[[],[9]], [(0,3),(1,4)], (0,3), (1,4), []⟩
    (by decide) (by decide) (by decide)
  refine ⟨by decide, ?_⟩
  rw [h.1]
  decide

-- ## Frontier permutation invariant (C4)
theorem disjKS_of_pairwise (ks : List (List Nat))
    (hp : List.Pairwise (fun s t => ∀ x ∈ s, x ∉ t) ks) : DisjKS ks := by
  unfold DisjKS
  intro i j s t hij hi hj x hx
  obtain ⟨hilt, hieq⟩ := List.getElem?_eq_some_iff.1 hi
  obtain ⟨hjlt, hjeq⟩ := List.getElem?_eq_some_iff.1 hj
  rcases Nat.lt_or_ge i j with hlt | hge
  · have hr := List.pairwise_iff_getElem.1 hp i j hilt hjlt hlt
    rw [hieq, hjeq] at hr
    exact hr x hx
  · have hlt2 : j < i := by omega
    have hr := List.pairwise_iff_getElem.1 hp j i hjlt hilt hlt2
    rw [hieq, hjeq] at hr
    intro hxt
    exact hr x hxt hx

theorem mem_set_elim {α : Type} {l : List α} {n : Nat} {b c : α} (h : c ∈ l.set n b) :
    (∃ j, j ≠ n ∧ l[j]? = some c) ∨ (c = b ∧ n < l.length) := by
  obtain ⟨j, hj⟩ := List.mem_iff_getElem?.1 h
  by_cases hjn : j = n
  · subst hjn
    by_cases hlt : j < l.length
    · rw [List.getElem?_set_self hlt] at hj
      cases hj
      exact Or.inr ⟨rfl, hlt⟩
    · rw [List.set_eq_of_length_le (by omega)] at hj
      rw [List.getElem?_eq_none (by omega)] at hj
      cases hj
  · rw [List.getElem?_set_ne (fun he => hjn he.symm)] at hj
    exact Or.inl ⟨j, hjn, hj⟩

theorem set_of_getElem? {α : Type} {l : List α} {n : Nat} {a : α} (h : l[n]? = some a) :
    l.set n a = l := by
  apply List.ext_getElem?
  intro j
  by_cases hjn : j = n
  · subst hjn
    obtain ⟨hlt, heq⟩ := List.getElem?_eq_some_iff.1 h
    rw [List.getElem?_set_self hlt, h]
  · rw [List.getElem?_set_ne (fun he => hjn he.symm)]

theorem sortByKey_head (key : α → Nat) (l : List α) (m : α) (hm : m ∈ l)
    (hmin : ∀ c ∈ l, c = m ∨ key m < key c) : (sortByKey key l).head? = some m := by
  cases hsort : sortByKey key l with
  | nil =>
    have hmem : m ∈ sortByKey key l := mem_sortByKey.2 hm
    rw [hsort] at hmem
    cases hmem
  | cons a as =>
    have ha : a ∈ l := mem_sortByKey.1 (by rw [hsort]; exact List.mem_cons_self a as)
    rcases hmin a ha with rfl | hlt
    · rfl
    · have hsorted := sorted_sortByKey key l
      rw [hsort] at hsorted
      have hmem : m ∈ a :: as := by rw [← hsort]; exact mem_sortByKey.2 hm
      rcases List.mem_cons.1 hmem with rfl | hmas
      · exact absurd hlt (Nat.lt_irrefl _)
      · have hrel := List.rel_of_sorted_cons hsorted m hmas
        omega

theorem sortByKey_fst_range (l : List (Nat × Nat)) (k : Nat)
    (hperm : (l.map Prod.fst).Perm (List.range k)) :
    (sortByKey Prod.fst l).map Prod.fst = List.range k := by
  have hsorted := sorted_sortByKey Prod.fst l
  have hs2 : ((sortByKey Prod.fst l).map Prod.fst).Sorted (· ≤ ·) :=
    List.pairwise_map.2 hsorted
  have hp : ((sortByKey Prod.fst l).map Prod.fst).Perm (List.range k) :=
    ((List.perm_insertionSort _ l).map Prod.fst).trans hperm
  exact List.eq_of_perm_of_sorted hp hs2 (List.sorted_le_range k)

theorem sortByKey_fst_getElem (l : List (Nat × Nat)) (k j : Nat)
    (hperm : (l.map Prod.fst).Perm (List.range k)) (hj : j < k) :
    ∃ c, (sortByKey Prod.fst l)[j]? = some c ∧ c.1 = j ∧ c ∈ l := by
  have hrange := sortByKey_fst_range l k hperm
  have hlen : (sortByKey Prod.fst l).length = k := by
    have := congrArg List.length hrange
    simpa using this
  have hget : (sortByKey Prod.fst l)[j]? = some (sortByKey Prod.fst l)[j] :=
    List.getElem?_eq_getElem (by omega)
  refine ⟨(sortByKey Prod.fst l)[j], hget, ?_, ?_⟩
  · have hmap : ((sortByKey Prod.fst l).map Prod.fst)[j]? = some j := by
      rw [hrange]
      exact List.getElem?_range hj
    rw [List.getElem?_map, hget] at hmap
    simpa using hmap
  · exact mem_sortByKey.1 (List.getElem?_mem hget)

theorem mem_sortPairs {l : List (Nat × List Nat)} {x : Nat × List Nat} :
    x ∈ sortPairs l ↔ x ∈ l := by
  simp [sortPairs, List.mem_insertionSort]

theorem windowOk_emit (ks : List (List Nat)) (current : List (Nat × Nat)) (x : Nat)
    (hperm : (current.map Prod.fst).Perm (List.range ks.length))
    (hmemb : ∀ c ∈ current, ∃ s, ks[c.1]? = some s ∧ c.2 ∈ s) :
    WindowOk ks (x, (sortByKey Prod.fst current).map Prod.snd) := by
  constructor
  · have hl := hperm.length_eq
    simp only [List.length_map, List.length_range] at hl
    simpa [length_sortByKey] using hl
  · intro i hi
    obtain ⟨c, hci, hcfst, hcmem⟩ := sortByKey_fst_getElem current ks.length i hperm hi
    obtain ⟨s, hks, hcs⟩ := hmemb c hcmem
    refine ⟨c.2, s, ?_, ?_, hcs⟩
    · show ((sortByKey Prod.fst current).map Prod.snd)[i]? = some c.2
      rw [List.getElem?_map, hci]
      rfl
    · rw [← hcfst]
      exact hks

theorem invD_step (ks : List (List Nat)) (st st1 : PState)
    (hdisj : DisjKS ks) (hinv : InvD ks st) (hstep : nearStep st = .cont st1) :
    InvD ks st1 := by
  obtain ⟨hsl, hperm, hsorted, hhead, hbd, hmemb, hstr, hout⟩ := hinv
  obtain ⟨hd, t, q, hs, hq, hcase⟩ := nearStep_cont_inv st st1 hstep
  obtain ⟨tl, hcur⟩ : ∃ tl, st.current = st.leftmost :: tl := by
    cases hc : st.current with
    | nil => rw [hc] at hhead; cases hhead
    | cons a tl =>
      rw [hc] at hhead
      simp only [List.head?_cons, Option.some.injEq] at hhead
      exact ⟨tl, by rw [hhead]⟩
  have hlen : st.current.length = ks.length := by
    have := hperm.length_eq
    simpa using this
  have hnodup : (st.current.map Prod.fst).Nodup :=
    (List.Perm.nodup_iff hperm).2 (List.nodup_range ks.length)
  have hlmmem : st.leftmost ∈ st.current := by rw [hcur]; exact List.mem_cons_self _ _
  have hqtl : tl[0]? = some q := by
    rw [hcur] at hq
    simpa using hq
  have hqmem_tl : q ∈ tl := List.getElem?_mem hqtl
  have hqmem : q ∈ st.current := by rw [hcur]; exact List.mem_cons_of_mem _ hqmem_tl
  obtain ⟨tl2, htl⟩ : ∃ tl2, tl = q :: tl2 := by
    cases htc : tl with
    | nil => rw [htc] at hqtl; cases hqtl
    | cons b tl2 =>
      rw [htc] at hqtl
      simp only [List.getElem?_cons_zero, Option.some.injEq] at hqtl
      exact ⟨tl2, by rw [hqtl]⟩
  have hdist : ∀ c ∈ st.current, ∀ d ∈ st.current, c ≠ d → c.2 ≠ d.2 := by
    intro c hc d hd2 hne heq
    by_cases hfst : c.1 = d.1
    · exact hne (List.inj_on_of_nodup_map hnodup hc hd2 hfst)
    · obtain ⟨s1, hs1, hc1⟩ := hmemb c hc
      obtain ⟨s2, hs2, hd3⟩ := hmemb d hd2
      exact hdisj c.1 d.1 s1 s2 hfst hs1 hs2 c.2 hc1 (heq ▸ hd3)
  have hq_ne_lm_fst : q.1 ≠ st.leftmost.1 := by
    intro heq
    rw [hcur] at hnodup
    simp only [List.map_cons, List.nodup_cons] at hnodup
    exact hnodup.1 (heq ▸ List.mem_map_of_mem Prod.fst hqmem_tl)
  have hhd_mem : ∃ s, ks[st.leftmost.1]? = some s ∧ hd ∈ s := by
    obtain ⟨s, hks, hsub⟩ := hstr st.leftmost.1 (hd :: t) hs
    exact ⟨s, hks, hsub (List.mem_cons_self hd t)⟩
  have hhd_ne_q : hd ≠ q.2 := by
    intro heq
    obtain ⟨s1, hs1, hh1⟩ := hhd_mem
    obtain ⟨s2, hs2, hq2⟩ := hmemb q hqmem
    exact hdisj st.leftmost.1 q.1 s1 s2 (fun he => hq_ne_lm_fst he.symm) hs1 hs2 hd hh1
      (heq ▸ hq2)
  have htl_sorted : tl.Sorted (fun a b => a.2 ≤ b.2) := by
    rw [hcur] at hsorted
    exact (List.sorted_cons.1 hsorted).2
  have hq_min_tl : ∀ c ∈ tl, c = q ∨ q.2 < c.2 := by
    intro c hc
    by_cases hcq : c = q
    · exact Or.inl hcq
    · right
      rw [htl] at hc
      rcases List.mem_cons.1 hc with rfl | hc2
      · exact absurd rfl hcq
      · have hle2 : q.2 ≤ c.2 := by
          rw [htl] at htl_sorted
          exact (List.sorted_cons.1 htl_sorted).1 c hc2
        have hcmem : c ∈ st.current := by
          rw [hcur, htl]
          exact List.mem_cons_of_mem _ (List.mem_cons_of_mem _ hc2)
        have hne2 : c.2 ≠ q.2 := hdist c hcmem q hqmem hcq
        omega
  have hstr1 : ∀ (j : Nat) (r : List Nat), (st.streams.set st.leftmost.1 t)[j]? = some r →
      ∃ s, ks[j]? = some s ∧ r ⊆ s := by
    intro j r hr
    by_cases hj : j = st.leftmost.1
    · subst hj
      obtain ⟨hlt, _⟩ := List.getElem?_eq_some_iff.1 hs
      rw [List.getElem?_set_self hlt] at hr
      cases hr
      obtain ⟨s, hks, hsub⟩ := hstr st.leftmost.1 (hd :: t) hs
      exact ⟨s, hks, fun x hx => hsub (List.mem_cons_of_mem hd hx)⟩
    · rw [List.getElem?_set_ne (fun he => hj he.symm)] at hr
      exact hstr j r hr
  have hsl1 : (st.streams.set st.leftmost.1 t).length = ks.length := by simp [hsl]
  rcases hcase with ⟨hgt, c0, hc0, hle, hidx, hst1⟩ | ⟨hle_hd, hpos, hst1⟩
  · -- emit-and-continue
    have hc0lm : c0 = st.leftmost := by
      rw [hcur] at hc0
      simpa using hc0.symm
    subst hc0lm
    subst hst1
    have hlm_lt : st.leftmost.1 < ks.length :=
      List.mem_range.1 (hperm.mem_iff.1 (List.mem_map_of_mem Prod.fst hlmmem))
    obtain ⟨e, hei, hefst, hemem⟩ :=
      sortByKey_fst_getElem st.current ks.length st.leftmost.1 hperm hlm_lt
    have he_lm : e = st.leftmost :=
      List.inj_on_of_nodup_map hnodup hemem hlmmem (by rw [hefst])
    have hrange := sortByKey_fst_range st.current ks.length hperm
    have hmap1 : ((sortByKey Prod.fst st.current).set st.leftmost.1
        (st.leftmost.1, hd)).map Prod.fst = List.range ks.length := by
      rw [List.map_set, hrange]
      exact set_of_getElem? (by rw [List.getElem?_range hlm_lt])
    have hmem1 : ∀ c ∈ (sortByKey Prod.fst st.current).set st.leftmost.1 (st.leftmost.1, hd),
        c = (st.leftmost.1, hd) ∨ (c ∈ st.current ∧ c ≠ st.leftmost) := by
      intro c hc
      rcases mem_set_elim hc with ⟨j, hjne, hj⟩ | ⟨rfl, _⟩
      · right
        have hcmem : c ∈ st.current := mem_sortByKey.1 (List.getElem?_mem hj)
        refine ⟨hcmem, ?_⟩
        have hjlt : j < ks.length := by
          obtain ⟨hjl, _⟩ := List.getElem?_eq_some_iff.1 hj
          rw [length_sortByKey] at hjl
          omega
        have hcfst : c.1 = j := by
          have hmapj : ((sortByKey Prod.fst st.current).map Prod.fst)[j]? = some j := by
            rw [hrange]
            exact List.getElem?_range hjlt
          rw [List.getElem?_map, hj] at hmapj
          simpa using hmapj
        intro heq
        rw [heq] at hcfst
        exact hjne hcfst.symm
      · exact Or.inl rfl
    have hq_in : q ∈ (sortByKey Prod.fst st.current).set st.leftmost.1 (st.leftmost.1, hd) := by
      obtain ⟨j, hj⟩ := List.mem_iff_getElem?.1 (mem_sortByKey.2 hqmem)
      have hjne : j ≠ st.leftmost.1 := by
        intro heq
        subst heq
        rw [hei] at hj
        have heq2 : e = q := by injection hj
        exact hq_ne_lm_fst (by rw [← heq2, he_lm])
      exact List.mem_iff_getElem?.2 ⟨j, by
        rw [List.getElem?_set_ne (fun he => hjne he.symm)]
        exact hj⟩
    have hq_min1 : ∀ c ∈ (sortByKey Prod.fst st.current).set st.leftmost.1 (st.leftmost.1, hd),
        c = q ∨ q.2 < c.2 := by
      intro c hc
      rcases hmem1 c hc with rfl | ⟨hcmem, hcne⟩
      · exact Or.inr (Nat.lt_of_le_of_lt (hbd q hqmem) hgt)
      · have hctl : c ∈ tl := by
          rw [hcur] at hcmem
          rcases List.mem_cons.1 hcmem with rfl | h2
          · exact absurd rfl hcne
          · exact h2
        exact hq_min_tl c hctl
    refine ⟨hsl1, ?_, sorted_sortByKey _ _, ?_, ?_, ?_, hstr1, ?_⟩
    · have hp2 : ((sortByKey Prod.snd ((sortByKey Prod.fst st.current).set st.leftmost.1
          (st.leftmost.1, hd))).map Prod.fst).Perm
          (((sortByKey Prod.fst st.current).set st.leftmost.1
            (st.leftmost.1, hd)).map Prod.fst) :=
        (List.perm_insertionSort _ _).map _
      rw [hmap1] at hp2
      exact hp2
    · exact sortByKey_head Prod.snd _ q hq_in hq_min1
    · intro c hc
      rcases hmem1 c (mem_sortByKey.1 hc) with rfl | ⟨hcmem, _⟩
      · exact Nat.le_refl _
      · exact Nat.le_of_lt (Nat.lt_of_le_of_lt (hbd c hcmem) hgt)
    · intro c hc
      rcases hmem1 c (mem_sortByKey.1 hc) with rfl | ⟨hcmem, _⟩
      · exact hhd_mem
      · exact hmemb c hcmem
    · intro w hw
      rcases List.mem_append.1 hw with hw | hw
      · exact hout w hw
      · rcases List.mem_singleton.1 hw with rfl
        exact windowOk_emit ks st.current _ hperm hmemb
  · -- no-emit continue
    subst hst1
    have hset0 : st.current.set 0 (st.leftmost.1, hd) = (st.leftmost.1, hd) :: tl := by
      rw [hcur]
      rfl
    have hmapeq : (((st.leftmost.1, hd) : Nat × Nat) :: tl).map Prod.fst =
        st.current.map Prod.fst := by
      rw [hcur]
      rfl
    have hq2lt : ¬ hd < q.2 → q.2 < hd := by
      intro hnlt
      have := Nat.not_lt.1 hnlt
      omega
    have hmin1 : ∀ c ∈ ((st.leftmost.1, hd) : Nat × Nat) :: tl,
        c = (if hd < q.2 then (st.leftmost.1, hd) else q) ∨
          (if hd < q.2 then (st.leftmost.1, hd) else q).2 < c.2 := by
      intro c hc
      by_cases hpq : hd < q.2
      · simp only [if_pos hpq]
        rcases List.mem_cons.1 hc with rfl | hctl
        · exact Or.inl rfl
        · rcases hq_min_tl c hctl with rfl | hlt2
          · exact Or.inr hpq
          · exact Or.inr (Nat.lt_trans hpq hlt2)
      · simp only [if_neg hpq]
        rcases List.mem_cons.1 hc with rfl | hctl
        · exact Or.inr (hq2lt hpq)
        · exact hq_min_tl c hctl
    have hm_in : (if hd < q.2 then ((st.leftmost.1, hd) : Nat × Nat) else q) ∈
        ((st.leftmost.1, hd) : Nat × Nat) :: tl := by
      by_cases hpq : hd < q.2
      · simp only [if_pos hpq]
        exact List.mem_cons_self _ _
      · simp only [if_neg hpq]
        exact List.mem_cons_of_mem _ hqmem_tl
    refine ⟨hsl1, ?_, sorted_sortByKey _ _, ?_, ?_, ?_, hstr1, hout⟩
    · show ((sortByKey Prod.snd (st.current.set 0 (st.leftmost.1, hd))).map Prod.fst).Perm
        (List.range ks.length)
      rw [hset0]
      have hp2 : ((sortByKey Prod.snd (((st.leftmost.1, hd) : Nat × Nat) :: tl)).map
          Prod.fst).Perm ((((st.leftmost.1, hd) : Nat × Nat) :: tl).map Prod.fst) :=
        (List.perm_insertionSort _ _).map _
      rw [hmapeq] at hp2
      exact hp2.trans hperm
    · rw [hset0]
      exact sortByKey_head Prod.snd _ _ hm_in hmin1
    · intro c hc
      rw [hset0] at hc
      rcases List.mem_cons.1 (mem_sortByKey.1 hc) with rfl | hctl
      · exact hle_hd
      · exact hbd c (by rw [hcur]; exact List.mem_cons_of_mem _ hctl)
    · intro c hc
      rw [hset0] at hc
      rcases List.mem_cons.1 (mem_sortByKey.1 hc) with rfl | hctl
      · exact hhd_mem
      · exact hmemb c (by rw [hcur]; exact List.mem_cons_of_mem _ hctl)

theorem invD_exit (ks : List (List Nat)) (st : PState) (o : List (Nat × List Nat))
    (hinv : InvD ks st) (hstep : nearStep st = .exit o) :
    ∀ w ∈ o, WindowOk ks w := by
  obtain ⟨_, hperm, _, _, _, hmemb, _, hout⟩ := hinv
  obtain ⟨_, _, _, _, ho⟩ := nearStep_exit_inv st o hstep
  subst ho
  intro w hw
  rcases List.mem_append.1 hw with hw | hw
  · exact hout w hw
  · rcases List.mem_singleton.1 hw with rfl
    exact windowOk_emit ks st.current _ hperm hmemb

theorem invD_iter (ks : List (List Nat)) (hdisj : DisjKS ks) :
    ∀ (n : Nat) (st0 st : PState), InvD ks st0 → iterN n st0 = some st → InvD ks st := by
  intro n
  induction n with
  | zero =>
    intro st0 st h0 hit
    simp only [iterN, Option.some.injEq] at hit
    rw [← hit]
    exact h0
  | succ m ih =>
    intro st0 st h0 hit
    simp only [iterN] at hit
    cases hstep : nearStep st0 with
    | panic => rw [hstep] at hit; cases hit
    | exit o => rw [hstep] at hit; cases hit
    | cont st1 =>
      rw [hstep] at hit
      exact ih st1 st (invD_step ks st0 st1 hdisj h0 hstep) hit

theorem invD_loop (ks : List (List Nat)) (hdisj : DisjKS ks) :
    ∀ (fuel : Nat) (st : PState) (o : List (Nat × List Nat)), InvD ks st →
      nearLoop fuel st = some (some o) → ∀ w ∈ o, WindowOk ks w := by
  intro fuel
  induction fuel with
  | zero => intro st o _ h; cases h
  | succ m ih =>
    intro st o hinv hloop
    simp only [nearLoop] at hloop
    cases hstep : nearStep st with
    | panic => rw [hstep] at hloop; cases hloop
    | exit o2 =>
      rw [hstep] at hloop
      simp only [Option.some.injEq] at hloop
      rw [← hloop]
      exact invD_exit ks st o2 hinv hstep
    | cont st1 =>
      rw [hstep] at hloop
      exact ih st1 o (invD_step ks st st1 hdisj hinv hstep) hloop

theorem invD_init_core (keywords : List (List Nat)) (cur0 : List (Nat × Nat))
    (streams0 : List (List Nat)) (leftmost rightmost : Nat × Nat)
    (hinit : initFrontier keywords 0 = some (cur0, streams0))
    (hhead : (sortByKey Prod.snd cur0).head? = some leftmost)
    (hlast : (sortByKey Prod.snd cur0).getLast? = some rightmost) :
    InvD keywords ⟨streams0, sortByKey Prod.snd cur0, leftmost, rightmost, []⟩ := by
  obtain ⟨hl1, hl2, hspec⟩ := initFrontier_spec keywords 0 cur0 streams0 hinit
  have hcur0map : cur0.map Prod.fst = List.range keywords.length := by
    apply List.ext_getElem?
    intro j
    by_cases hj : j < keywords.length
    · obtain ⟨hd, t, _, h2, _⟩ := hspec j hj
      rw [List.getElem?_map, h2, List.getElem?_range hj]
      simp
    · rw [List.getElem?_eq_none (by rw [List.length_map, hl1]; omega),
        List.getElem?_eq_none (by rw [List.length_range]; omega)]
  have hcur0mem : ∀ c ∈ cur0, ∃ s, keywords[c.1]? = some s ∧ c.2 ∈ s := by
    intro c hc
    obtain ⟨j, hj⟩ := List.mem_iff_getElem?.1 hc
    have hjlt : j < keywords.length := by
      obtain ⟨hjl, _⟩ := List.getElem?_eq_some_iff.1 hj
      omega
    obtain ⟨hd, t, h1, h2, _⟩ := hspec j hjlt
    rw [hj] at h2
    have hc2 : c = (0 + j, hd) := Option.some.inj h2
    subst hc2
    refine ⟨hd :: t, ?_, List.mem_cons_self hd t⟩
    simpa using h1
  have hsorted := sorted_sortByKey Prod.snd cur0
  have hmax := key_le_of_getLast? Prod.snd _ hsorted rightmost hlast
  refine ⟨hl2, ?_, hsorted, hhead, ?_, ?_, ?_, ?_⟩
  · have hp2 : ((sortByKey Prod.snd cur0).map Prod.fst).Perm (cur0.map Prod.fst) :=
      (List.perm_insertionSort _ _).map _
    rw [hcur0map] at hp2
    exact hp2
  · intro c hc
    exact hmax c hc
  · intro c hc
    exact hcur0mem c (mem_sortByKey.1 hc)
  · intro j r hr
    have hr2 : streams0[j]? = some r := hr
    have hjlt : j < keywords.length := by
      obtain ⟨hjl, _⟩ := List.getElem?_eq_some_iff.1 hr2
      omega
    obtain ⟨hd, t, h1, _, h3⟩ := hspec j hjlt
    rw [hr2] at h3
    have ht : r = t := Option.some.inj h3
    subst ht
    exact ⟨hd :: r, h1, List.subset_cons_self hd r⟩
  · intro w hw
    cases hw

theorem initState_inv (ks : List (List Nat)) (st0 : PState) (h : initState ks = some st0) :
    ∃ cur0 streams0 lm rm, initFrontier ks 0 = some (cur0, streams0) ∧
      (sortByKey Prod.snd cur0).head? = some lm ∧
      (sortByKey Prod.snd cur0).getLast? = some rm ∧
      st0 = ⟨streams0, sortByKey Prod.snd cur0, lm, rm, []⟩ := by
  unfold initState at h
  cases hinit : initFrontier ks 0 with
  | none => rw [hinit] at h; cases h
  | some p =>
    obtain ⟨cur0, streams0⟩ := p
    rw [hinit] at h
    dsimp only at h
    cases hhead : (sortByKey Prod.snd cur0).head? with
    | none =>
      rw [hhead] at h
      cases hlast : (sortByKey Prod.snd cur0).getLast? with
      | none => rw [hlast] at h; cases h
      | some rm => rw [hlast] at h; cases h
    | some lm =>
      cases hlast : (sortByKey Prod.snd cur0).getLast? with
      | none => rw [hhead, hlast] at h; cases h
      | some rm =>
        rw [hhead, hlast] at h
        dsimp only at h
        cases h
        exact ⟨cur0, streams0, lm, rm, rfl, hhead, hlast, rfl⟩

/-- Claim C4 counterexample: for the sorted input streams `[0,4]` and `[4,10,20]`
(which share the position `4`), after two iterations of the main loop the
frontier is `[(1,4),(1,10)]`: keyword `0` no longer owns any frontier entry,
so the frontier's keyword indices are not a permutation of `0..2`. -/
theorem near_proximity_frontier_perm_cex :
    (∀ s ∈ [[0,4],[4,10,20]], List.Sorted (· ≤ ·) s) ∧
    2 ≤ ([[0,4],[4,10,20]] : List (List Nat)).length ∧
    initState [[0,4],[4,10,20]] = some ⟨[[4],[10,20]], [(0,0),(1,4)], (0,0), (1,4), []⟩ ∧
    iterN 2 ⟨[[4],[10,20]], [(0,0),(1,4)], (0,0), (1,4), []⟩ =
      some ⟨[[],[20]], [(1,4),(1,10)], (1,4), (1,10), [(0,[4,4])]⟩ ∧
    0 ∉ ([(1,4),(1,10)] : List (Nat × Nat)).map Prod.fst := by
  refine ⟨by decide, by decide, by decide, ?_, by decide⟩
  rfl

/-- Claim C4 (amended): for every input of `k ≥ 2` sorted streams whose
position values are pairwise disjoint across different streams, at every
iteration of the main loop the frontier holds exactly one entry per keyword
(its keyword indices are a permutation of `0..k`), and every window recorded
(both along the way and in the final result of `near_proximity`) has exactly
`k` positions, the one at index `i` being a value drawn from keyword `i`'s
stream. The disjointness assumption is forced by the counterexample above:
without it a cross-stream tie corrupts the frontier. -/
theorem near_proximity_frontier_perm (keywords : List (List Nat))
    (hk2 : 2 ≤ keywords.length)
    (hsorted : ∀ s ∈ keywords, List.Sorted (· ≤ ·) s)
    (hdisj : List.Pairwise (fun s t => ∀ x ∈ s, x ∉ t) keywords) :
    (∀ (st0 st : PState) (n : Nat), initState keywords = some st0 → iterN n st0 = some st →
      (st.current.map Prod.fst).Perm (List.range keywords.length) ∧
      ∀ w ∈ st.output, WindowOk keywords w) ∧
    (∀ (output res : List (Nat × List Nat)), near_proximity keywords output = some res →
      ∀ w ∈ res, WindowOk keywords w) := by
  have hdk := disjKS_of_pairwise keywords hdisj
  constructor
  · intro st0 st n hinit0 hiter
    obtain ⟨cur0, streams0, lm, rm, hinit, hhead, hlast, hst0⟩ :=
      initState_inv keywords st0 hinit0
    subst hst0
    have hinv0 := invD_init_core keywords cur0 streams0 lm rm hinit hhead hlast
    have hinv := invD_iter keywords hdk n _ st hinv0 hiter
    exact ⟨hinv.2.1, hinv.2.2.2.2.2.2.2⟩
  · intro output res hres
    rw [near_proximity, if_neg (by omega)] at hres
    cases hinit : initFrontier keywords 0 with
    | none =>
      rw [hinit] at hres
      cases hres
      intro w hw
      cases hw
    | some p =>
      obtain ⟨cur0, streams0⟩ := p
      rw [hinit] at hres
      dsimp only at hres
      cases hhead : (sortByKey Prod.snd cur0).head? with
      | none =>
        rw [hhead] at hres
        cases hlast : (sortByKey Prod.snd cur0).getLast? with
        | none => rw [hlast] at hres; cases hres
        | some rm => rw [hlast] at hres; cases hres
      | some lm =>
        cases hlast : (sortByKey Prod.snd cur0).getLast? with
        | none => rw [hhead, hlast] at hres; cases hres
        | some rm =>
          rw [hhead, hlast] at hres
          dsimp only at hres
          cases hloop : nearLoop (totalLen streams0 + 1)
              ⟨streams0, sortByKey Prod.snd cur0, lm, rm, []⟩ with
          | none => rw [hloop] at hres; cases hres
          | some oo =>
            rw [hloop] at hres
            cases oo with
            | none => cases hres
            | some out =>
              dsimp only at hres
              cases hres
              have hinv0 := invD_init_core keywords cur0 streams0 lm rm hinit hhead hlast
              have hwin := invD_loop keywords hdk (totalLen streams0 + 1)
                ⟨streams0, sortByKey Prod.snd cur0, lm, rm, []⟩ out hinv0 hloop
              intro w hw
              exact hwin w (mem_sortPairs.1 hw)

theorem near_proximity_frontier_perm_witness :
    (∀ (st0 st : PState) (n : Nat), initState [[0,1,6,10],[2,3,7,12]] = some st0 →
      iterN n st0 = some st →
      (st.current.map Prod.fst).Perm (List.range ([[0,1,6,10],[2,3,7,12]] :
        List (List Nat)).length) ∧
      ∀ w ∈ st.output, WindowOk [[0,1,6,10],[2,3,7,12]] w) ∧
    (∀ (output res : List (Nat × List Nat)),
      near_proximity [[0,1,6,10],[2,3,7,12]] output = some res →
      ∀ w ∈ res, WindowOk [[0,1,6,10],[2,3,7,12]] w) :=
  near_proximity_frontier_perm [[0,1,6,10],[2,3,7,12]] (by decide) (by decide) (by decide)

